import Mathlib

/-!
Shallow embedding of `src/properties.ts` of the csstype repository.

The file `src/properties.ts` consists of two parts: the property-table
loader (which resolves each property's value definition into a list of
semantic `Type` values and assigns it to every compat/vendor alias name)
and the declaration assembler (which normalizes the resolved lists into
declarable shape, deduplicates named declarations, and builds the
interface graph).

Machine integers do not occur; numeric literals in the data are modelled
as `Int`.  The JavaScript functions are translated one-to-one; the only
parts modelled from the spec rather than the source are noted in their
doc comments (the `Type` enum ordinals of `typer.ts`, and the externally
supplied parser/typer, casing and compat tables, which enter as explicit
parameters).
-/

namespace CssType

/-- Embeds `IGenerics` of `typer.ts` as used by `properties.ts`: a generic
parameter with a name and a default. -/
structure IGenerics where
  name : String
  defaults : String
deriving DecidableEq

/-- Embeds the semantic `Type` values (`TypeType`) flowing through
`properties.ts`: string/numeric literals, the generic string/number
shapes (`Type.String`/`Type.Number`), `Length`, unresolved `DataType`
references and `Alias` references.  `MixedType` and `DeclarableType` are
both represented by this one type; "declarable" lists are exactly those
containing no `dataType`. -/
inductive Ty where
  | stringLiteral (literal : String)
  | numericLiteral (literal : Int)
  | string
  | number
  | length
  | dataType (name : String)
  | alias (name : String) (generics : List IGenerics)
deriving DecidableEq

/-- Modelled from the spec: the numeric ordinals of the `Type` enum live in
`typer.ts`, which is not among the sources; the spec lists the variants in
the order `StringLiteral`, `NumericLiteral`, `GenericString`,
`GenericNumber`, `Length`, `DataType`, `Alias`, and we assign ordinals in
that listed order.  The claims depend only on the ordinals being a fixed
assignment of distinct numbers per kind. -/
def Ty.ord : Ty → Int
  | .stringLiteral _ => 0
  | .numericLiteral _ => 1
  | .string => 2
  | .number => 3
  | .length => 4
  | .dataType _ => 5
  | .alias _ _ => 6

/-- Kind test for `type.type === Type.DataType`. -/
def Ty.isDataType : Ty → Bool
  | .dataType _ => true
  | _ => false

/-- Kind test for `type.type === Type.String`. -/
def Ty.isString : Ty → Bool
  | .string => true
  | _ => false

/-- Kind test for `type.type === Type.Number`. -/
def Ty.isNumber : Ty → Bool
  | .number => true
  | _ => false

/-- Embeds the `lengthGeneric` constant of `properties.ts`. -/
def lengthGeneric : IGenerics :=
  { name := "TLength", defaults := "string | 0" }

/-- The `dataTypes` registry imported from `data-types.ts`: a finite map
from data-type name to its resolved type list, represented as an
association list (`name in dataTypes` becomes a successful lookup). -/
abbrev DataTypes : Type := List (String × List Ty)

/-- Names of `dataType` references occurring in a type list (used to state
acyclicity of the registry). -/
def refNames (l : List Ty) : List String :=
  l.filterMap fun t =>
    match t with
    | .dataType n => some n
    | _ => none

/-- One pass of the `types.every(...)` callback loop inside `lengthIn` of
`properties.ts`, with the recursive `lengthIn(dataTypes[type.name])` call
abstracted as `recur`.  The callback returns `false` on a `Length` entry,
and on a `DataType` entry whose name is truthy, registered, and whose
registered list needs length; `every` short-circuits on the first `false`.
`none` propagates a recursive call that did not yield a result. -/
def everyStep (recur : List Ty → Option Bool) (R : DataTypes) : List Ty → Option Bool
  | [] => some true
  | t :: rest =>
    match t with
    | Ty.length => some false
    | Ty.dataType name =>
      if name = "" then everyStep recur R rest
      else
        match R.lookup name with
        | none => everyStep recur R rest
        | some l =>
          match recur l with
          | none => none
          | some e => if e then everyStep recur R rest else some false
    | _ => everyStep recur R rest

/-- The `every` loop of `lengthIn` with explicit recursion fuel: each
nested `lengthIn` call costs one unit of fuel, and running out of fuel
yields `none`.  The source recursion has no cycle protection, so `none`
for every fuel models divergence. -/
def everyF : Nat → DataTypes → List Ty → Option Bool
  | 0, R, ts => everyStep (fun _ => none) R ts
  | n + 1, R, ts => everyStep (fun l => everyF n R l) R ts

/-- Embeds `lengthIn` of `properties.ts`:
`return !types.every(type => { ... })`, with recursion fuel. -/
def lengthInF (n : Nat) (R : DataTypes) (ts : List Ty) : Option Bool :=
  (everyF n R ts).map (fun e => !e)

/-- The recursion of `lengthIn` reaches a result for some fuel. -/
def LengthInTerminates (R : DataTypes) (ts : List Ty) : Prop :=
  ∃ n, (lengthInF n R ts).isSome

/-- Spec-side transitive "needs length" relation: a list needs the length
generic if it directly contains `Length`, or contains a `DataType` whose
name is registered and whose registered list itself needs length. -/
inductive NeedsLength (R : DataTypes) : List Ty → Prop where
  | direct {ts} : Ty.length ∈ ts → NeedsLength R ts
  | ref {ts name l} : Ty.dataType name ∈ ts → R.lookup name = some l →
      NeedsLength R l → NeedsLength R ts

/-- Lexicographic comparison of character lists by code unit, modelling
the JavaScript `<` operator on strings (which compares UTF-16 code units;
identical to code-point order for the ASCII keywords in the data).  This
is written as an explicitly computable function because the claims are
checked on concrete literals. -/
def charListLt : List Char → List Char → Bool
  | [], [] => false
  | [], _ :: _ => true
  | _ :: _, [] => false
  | a :: as, b :: bs =>
    if a.toNat < b.toNat then true
    else if b.toNat < a.toNat then false
    else charListLt as bs

/-- The JavaScript `<` on strings. -/
def strLt (a b : String) : Bool := charListLt a.data b.data

theorem charListLt_asymm :
    ∀ {a b : List Char}, charListLt a b = true → charListLt b a = false := by
  intro a
  induction a with
  | nil =>
    intro b h
    cases b with
    | nil => exact absurd h (by simp [charListLt])
    | cons y ys => rfl
  | cons x xs ih =>
    intro b h
    cases b with
    | nil => exact absurd h (by simp [charListLt])
    | cons y ys =>
      simp only [charListLt] at h ⊢
      by_cases h1 : x.toNat < y.toNat
      · rw [if_neg (by omega), if_pos h1]
      · by_cases h2 : y.toNat < x.toNat
        · rw [if_neg h1, if_pos h2] at h
          exact absurd h (by simp)
        · rw [if_neg h1, if_neg h2] at h
          rw [if_neg h2, if_neg h1]
          exact ih h

theorem charListLt_false_trans :
    ∀ {c b a : List Char}, charListLt b a = false → charListLt c b = false →
      charListLt c a = false := by
  intro c
  induction c with
  | nil =>
    intro b a hba hcb
    cases b with
    | cons y ys => exact absurd hcb (by simp [charListLt])
    | nil =>
      cases a with
      | cons x xs => exact absurd hba (by simp [charListLt])
      | nil => rfl
  | cons z zs ih =>
    intro b a hba hcb
    cases a with
    | nil => rfl
    | cons x xs =>
      cases b with
      | nil => exact absurd hba (by simp [charListLt])
      | cons y ys =>
        simp only [charListLt] at hba hcb ⊢
        by_cases hyx : y.toNat < x.toNat
        · rw [if_pos hyx] at hba
          exact absurd hba (by simp)
        · rw [if_neg hyx] at hba
          by_cases hzy : z.toNat < y.toNat
          · rw [if_pos hzy] at hcb
            exact absurd hcb (by simp)
          · rw [if_neg hzy] at hcb
            rw [if_neg (by omega : ¬ z.toNat < x.toNat)]
            by_cases hxz : x.toNat < z.toNat
            · rw [if_pos hxz]
            · rw [if_neg hxz]
              have hxy : ¬ x.toNat < y.toNat := by omega
              have hyz : ¬ y.toNat < z.toNat := by omega
              rw [if_neg hxy] at hba
              rw [if_neg hyz] at hcb
              exact ih hba hcb

/-- Embeds `sorter` of `properties.ts`: compare two `StringLiteral`s by
literal (the JavaScript string `<`), two `NumericLiteral`s by difference,
anything else by the difference of their `Type` ordinals. -/
def sorter (a b : Ty) : Int :=
  match a, b with
  | .stringLiteral la, .stringLiteral lb =>
    if strLt la lb then -1 else if strLt lb la then 1 else 0
  | .numericLiteral la, .numericLiteral lb => la - lb
  | _, _ => a.ord - b.ord

/-- The non-strict order induced by the `sorter` comparator: `a` may come
before `b` in the sorted output. -/
def SorterLE (a b : Ty) : Prop := sorter a b ≤ 0

instance : DecidableRel SorterLE := fun a b => by
  unfold SorterLE; infer_instance

/-- Tie-breaking relation of the canonical order at equal ordinals:
lexicographic on string literals, numeric on numeric literals, arbitrary
otherwise. -/
def tieLE : Ty → Ty → Prop
  | .stringLiteral la, .stringLiteral lb => strLt lb la = false
  | .numericLiteral la, .numericLiteral lb => la ≤ lb
  | _, _ => True

theorem sorterLE_iff (a b : Ty) :
    SorterLE a b ↔ a.ord < b.ord ∨ (a.ord = b.ord ∧ tieLE a b) := by
  cases a <;> cases b <;>
    simp only [SorterLE, sorter, tieLE, Ty.ord, lt_self_iff_false, false_or,
      eq_self_iff_true, true_and] <;>
    (try split_ifs) <;>
    first
      | decide
      | omega
      | (rename_i h1; exact iff_of_true (by omega) (charListLt_asymm h1))
      | (rename_i h1 h2; exact iff_of_false (by omega) (by simp [h2]))
      | (rename_i h1 h2; exact iff_of_true (by omega) (by simpa using h2))

theorem tieLE_trans {a b c : Ty} (hab : a.ord = b.ord) (hbc : b.ord = c.ord) :
    tieLE a b → tieLE b c → tieLE a c := by
  cases a <;> cases b <;> cases c <;>
    simp_all only [Ty.ord, tieLE] <;>
    first
      | trivial
      | omega
      | (intro h1 h2; exact le_trans h1 h2)
      | (intro h1 h2; exact charListLt_false_trans h1 h2)

instance : IsTrans Ty SorterLE where
  trans a b c hab hbc := by
    rw [sorterLE_iff] at *
    rcases hab with h1 | ⟨e1, t1⟩ <;> rcases hbc with h2 | ⟨e2, t2⟩
    · exact Or.inl (lt_trans h1 h2)
    · exact Or.inl (e2 ▸ h1)
    · exact Or.inl (e1 ▸ h2)
    · exact Or.inr ⟨e1.trans e2, tieLE_trans e1 e2 t1 t2⟩

instance : IsTotal Ty SorterLE where
  total a b := by
    cases a <;> cases b <;>
      simp only [SorterLE, sorter, Ty.ord] <;>
      (try split_ifs) <;>
      first
        | decide
        | omega

/-- Option-valued pointwise map, modelling a JavaScript `map` whose
callback may diverge (a `none` anywhere makes the whole result `none`). -/
def mapOpt (f : Ty → Option Ty) : List Ty → Option (List Ty)
  | [] => some []
  | a :: as =>
    match f a, mapOpt f as with
    | some b, some bs => some (b :: bs)
    | _, _ => none

/-- The callback of the `map` inside `declarable` of `properties.ts`: a
`DataType` entry is rewritten to an `Alias` named by the PascalCase of the
data-type name, with generics `[lengthGeneric]` exactly when the name is
truthy, registered, and its registered list needs length; every other
entry is returned unchanged.  `pascal` abstracts `toPascalCase` of
`casing.ts`, which is not among the sources. -/
def rewriteType (pascal : String → String) (fuel : Nat) (R : DataTypes) (t : Ty) : Option Ty :=
  match t with
  | Ty.dataType name =>
    if name = "" then some (Ty.alias (pascal name) [])
    else
      match R.lookup name with
      | none => some (Ty.alias (pascal name) [])
      | some l =>
        match lengthInF fuel R l with
        | none => none
        | some b => some (Ty.alias (pascal name) (if b then [lengthGeneric] else []))
  | t => some t

/-- Embeds `declarable` of `properties.ts`:
`types.sort(sorter).map(type => ...)`.  The JavaScript in-place sort with
a consistent comparator is modelled by a stable sort with respect to the
order induced by `sorter`. -/
def declarable (pascal : String → String) (fuel : Nat) (R : DataTypes)
    (types : List Ty) : Option (List Ty) :=
  mapOpt (rewriteType pascal fuel R) (types.insertionSort SorterLE)

/-- The filter predicate inside `filterMissingDataTypes`:
`type.type !== Type.DataType || (!!type.name && type.name in dataTypes)`. -/
def keepType (R : DataTypes) (t : Ty) : Bool :=
  match t with
  | Ty.dataType name => name ≠ "" && (R.lookup name).isSome
  | _ => true

/-- Embeds `filterMissingDataTypes` of `properties.ts`: drop `DataType`
entries whose name is missing from the registry; if anything was dropped
and no `String` entry remains, append one `String` fallback. -/
def filterMissingDataTypes (R : DataTypes) (types : List Ty) : List Ty :=
  if (types.filter (keepType R)).length < types.length
      && (types.filter (keepType R)).all (fun t => !t.isString) then
    types.filter (keepType R) ++ [Ty.string]
  else
    types.filter (keepType R)

/-- Embeds `onlyContainsString` of `properties.ts`. -/
def onlyContainsString (types : List Ty) : Bool :=
  types.all (fun t => t.isString)

/-- Embeds `onlyContainsNumber` of `properties.ts`. -/
def onlyContainsNumber (types : List Ty) : Bool :=
  types.all (fun t => t.isNumber)

/-- Embeds `IDeclaration` of `properties.ts`. -/
structure Declaration where
  name : String
  exported : Bool
  types : List Ty
  generics : List IGenerics
deriving DecidableEq

/-- Embeds `declarationExists` of `properties.ts`:
`!declarations.every(declaration => declaration.name !== name)`. -/
def declarationExists (decls : List Declaration) (name : String) : Bool :=
  !(decls.all fun d => d.name ≠ name)

/-- Embeds `aliasOf` of `properties.ts`: an `Alias` to a declaration,
carrying `[lengthGeneric]` exactly when the declaration's types need
length (with recursion fuel for the `lengthIn` call). -/
def aliasOf (fuel : Nat) (R : DataTypes) (d : Declaration) : Option Ty :=
  match lengthInF fuel R d.types with
  | none => none
  | some b => some (Ty.alias d.name (if b then [lengthGeneric] else []))

/-- Embeds `IPropertyAlias` of `properties.ts`. -/
structure PropertyAlias where
  name : String
  generics : List IGenerics
  aliasTo : Ty
deriving DecidableEq

/-- The `PROPERTY` suffix constant of `properties.ts`. -/
def PROPERTY : String := "Property"

/-- The mutable state threaded through the property-assembly loop: the
shared declaration list and the per-group definition lists. -/
structure AssemblyState where
  declarations : List Declaration
  definitions : List PropertyAlias
  hyphenDefinitions : List PropertyAlias
deriving DecidableEq

/-- The declaration-choice branch of one assembly iteration (the
`if/else if/else` chain of the loop body): pick one of the three shared
global declarations, or build the named per-property declaration, pushing
it onto the declaration list only when `declarationExists` does not
already find the name. -/
def chooseDeclaration (pascal : String → String) (fuel : Nat) (R : DataTypes)
    (globalsD gStringD gNumberD : Declaration) (decls : List Declaration)
    (name : String) (types : List Ty) (generics : List IGenerics) :
    Option (Declaration × List Declaration) :=
  if types.isEmpty then
    some (globalsD, decls)
  else if onlyContainsString types then
    some (gStringD, decls)
  else if onlyContainsNumber types then
    some (gNumberD, decls)
  else
    match aliasOf fuel R globalsD, declarable pascal fuel R types with
    | some ga, some dts =>
      let declarationName := pascal name ++ PROPERTY
      let declaration : Declaration :=
        { name := declarationName, exported := false, types := ga :: dts, generics := generics }
      some (declaration,
        if declarationExists decls declarationName then decls else decls ++ [declaration])
    | _, _ => none

/-- Embeds one iteration of the property-assembly loop of `properties.ts`
(see `chooseDeclaration` for the branch structure). -/
def processOne (pascal caseName : String → String) (fuel : Nat) (R : DataTypes)
    (globalsD gStringD gNumberD : Declaration) (st : AssemblyState)
    (name : String) (rawTypes : List Ty) : Option AssemblyState := do
  let types := filterMissingDataTypes R rawTypes
  let b ← lengthInF fuel R types
  let generics := if b then [lengthGeneric] else []
  let pr ← chooseDeclaration pascal fuel R globalsD gStringD gNumberD st.declarations
    name types generics
  let al ← aliasOf fuel R pr.1
  some { declarations := pr.2
         definitions := st.definitions ++ [{ name := caseName name, generics := generics, aliasTo := al }]
         hyphenDefinitions := st.hyphenDefinitions ++ [{ name := name, generics := generics, aliasTo := al }] }

/-- The property-assembly loop over a list of (name, resolved types)
pairs. -/
def processProperties (pascal caseName : String → String) (fuel : Nat) (R : DataTypes)
    (globalsD gStringD gNumberD : Declaration) (st : AssemblyState) :
    List (String × List Ty) → Option AssemblyState
  | [] => some st
  | (name, ts) :: rest => do
    let st' ← processOne pascal caseName fuel R globalsD gStringD gNumberD st name ts
    processProperties pascal caseName fuel R globalsD gStringD gNumberD st' rest

/-- Embeds `genericsOf` of `properties.ts`:
`Array.from(new Set([].concat(...definitions.map(d => d.generics))))`.
The JavaScript `Set` keeps the first occurrence of each element; with the
single shared `lengthGeneric` constant, reference equality coincides with
value equality. -/
def jsSetDedup : List IGenerics → List IGenerics
  | [] => []
  | a :: as => a :: (jsSetDedup as).filter (fun x => x ≠ a)

/-- Embeds `genericsOf` of `properties.ts`. -/
def genericsOf (definitions : List PropertyAlias) : List IGenerics :=
  jsSetDedup (definitions.flatMap fun d => d.generics)

/-- A successful registry lookup means the looked-up name is among the
registry keys. -/
theorem lookup_some_mem_keys {R : DataTypes} {n : String} {l : List Ty}
    (h : R.lookup n = some l) : n ∈ R.map Prod.fst := by
  induction R with
  | nil => simp at h
  | cons p rest ih =>
    rcases p with ⟨k, v⟩
    rw [List.lookup_cons] at h
    by_cases he : n = k
    · simp [he]
    · have : (n == k) = false := beq_false_of_ne he
      rw [this] at h
      exact List.mem_cons_of_mem _ (ih h)

/-- A successful registry lookup returns an entry of the registry. -/
theorem lookup_mem {R : DataTypes} {n : String} {l : List Ty}
    (h : R.lookup n = some l) : (n, l) ∈ R := by
  induction R with
  | nil => simp at h
  | cons p rest ih =>
    rcases p with ⟨k, v⟩
    rw [List.lookup_cons] at h
    by_cases he : n = k
    · subst he
      rw [show (n == n) = true from beq_self_eq_true n] at h
      simp only [Option.some.injEq] at h
      subst h
      exact List.mem_cons_self _ _
    · rw [beq_false_of_ne he] at h
      exact List.mem_cons_of_mem _ (ih h)

/-- Removing a head that can contribute no length does not change the
transitive needs-length relation. -/
theorem needsLength_cons_iff {R : DataTypes} {t : Ty} {ts : List Ty}
    (hlen : t ≠ Ty.length)
    (ht : ∀ name l, t = Ty.dataType name → R.lookup name = some l → ¬ NeedsLength R l) :
    NeedsLength R (t :: ts) ↔ NeedsLength R ts := by
  constructor
  · intro h
    cases h with
    | direct hm =>
      rcases List.mem_cons.mp hm with he | hm'
      · exact absurd he.symm hlen
      · exact NeedsLength.direct hm'
    | ref hm hl hn =>
      rcases List.mem_cons.mp hm with he | hm'
      · exact absurd hn (ht _ _ he.symm hl)
      · exact NeedsLength.ref hm' hl hn
  · intro h
    cases h with
    | direct hm => exact NeedsLength.direct (List.mem_cons_of_mem _ hm)
    | ref hm hl hn => exact NeedsLength.ref (List.mem_cons_of_mem _ hm) hl hn

/-- The empty list never needs length. -/
theorem not_needsLength_nil {R : DataTypes} : ¬ NeedsLength R ([] : List Ty) := by
  intro h
  cases h with
  | direct hm => simp at hm
  | ref hm _ _ => simp at hm

/-- A head that is neither `Length` nor a `DataType` is skipped by the
`every` pass. -/
theorem everyStep_skip {recur : List Ty → Option Bool} {R : DataTypes} {t : Ty}
    {rest : List Ty} (h1 : t ≠ Ty.length) (h2 : ∀ n, t ≠ Ty.dataType n) :
    everyStep recur R (t :: rest) = everyStep recur R rest := by
  cases t <;>
    first
      | rfl
      | exact absurd rfl h1
      | exact absurd rfl (h2 _)

/-- Soundness of one `every` pass: given a sound recursive oracle, the
pass returns `false` exactly when the list transitively needs length.
The hypothesis `hk` rules out an (impossible for the real registry)
empty-string key, which the source skips because `""` is falsy. -/
theorem everyStep_sound {R : DataTypes} (hk : ∀ k ∈ R.map Prod.fst, k ≠ "")
    {recur : List Ty → Option Bool}
    (hrec : ∀ name l e', R.lookup name = some l → recur l = some e' →
      (e' = false ↔ NeedsLength R l)) :
    ∀ ts e, everyStep recur R ts = some e → (e = false ↔ NeedsLength R ts) := by
  intro ts
  induction ts with
  | nil =>
    intro e h
    simp only [everyStep, Option.some.injEq] at h
    subst h
    simp [not_needsLength_nil]
  | cons t rest ih =>
    intro e h
    by_cases hL : t = Ty.length
    · subst hL
      simp only [everyStep, Option.some.injEq] at h
      subst h
      simp only [eq_self_iff_true, true_iff]
      exact NeedsLength.direct (List.mem_cons_self _ _)
    · by_cases hD : ∀ n, t ≠ Ty.dataType n
      · rw [everyStep_skip hL hD] at h
        rw [ih e h]
        exact (needsLength_cons_iff hL (fun name l he _ => absurd he (hD name))).symm
      · push_neg at hD
        obtain ⟨name, rfl⟩ := hD
        by_cases hn : name = ""
        · simp only [everyStep, if_pos hn] at h
          rw [ih e h]
          refine (needsLength_cons_iff (by simp) ?_).symm
          intro name' l he hl
          cases he
          rw [hn] at hl
          exact absurd rfl (hk _ (lookup_some_mem_keys hl))
        · simp only [everyStep, if_neg hn] at h
          cases hlk : R.lookup name with
          | none =>
            simp only [hlk] at h
            rw [ih e h]
            refine (needsLength_cons_iff (by simp) ?_).symm
            intro name' l he hl
            cases he
            rw [hlk] at hl
            exact absurd hl (by simp)
          | some l =>
            simp only [hlk] at h
            cases hrc : recur l with
            | none =>
              rw [hrc] at h
              exact Option.noConfusion h
            | some e' =>
              simp only [hrc] at h
              cases e' with
              | true =>
                simp only [if_pos rfl] at h
                rw [ih e h]
                refine (needsLength_cons_iff (by simp) ?_).symm
                intro name' l' he hl
                cases he
                rw [hlk] at hl
                cases hl
                intro hnl
                have := (hrec _ _ _ hlk hrc).mpr hnl
                simp at this
              | false =>
                simp only [Bool.false_eq_true, if_false, Option.some.injEq] at h
                subst h
                simp only [eq_self_iff_true, true_iff]
                exact NeedsLength.ref (List.mem_cons_self _ _) hlk
                  ((hrec _ _ _ hlk hrc).mp rfl)

/-- Soundness of the fueled `every` loop. -/
theorem everyF_sound {R : DataTypes} (hk : ∀ k ∈ R.map Prod.fst, k ≠ "") :
    ∀ n ts e, everyF n R ts = some e → (e = false ↔ NeedsLength R ts) := by
  intro n
  induction n with
  | zero =>
    intro ts e h
    exact everyStep_sound hk (by intro _ _ _ _ h'; simp at h') ts e h
  | succ m ih =>
    intro ts e h
    exact everyStep_sound hk (by intro name l e' _ h'; exact ih l e' h') ts e h

/-- Soundness of the fueled `lengthIn`: whenever the recursion reaches a
result, that result is `true` exactly when the list transitively needs
the length generic. -/
theorem lengthInF_sound {R : DataTypes} (hk : ∀ k ∈ R.map Prod.fst, k ≠ "")
    {n : Nat} {ts : List Ty} {b : Bool} (h : lengthInF n R ts = some b) :
    (b = true ↔ NeedsLength R ts) := by
  unfold lengthInF at h
  cases he : everyF n R ts with
  | none => rw [he] at h; simp at h
  | some e =>
    rw [he] at h
    simp only [Option.map_some', Option.some.injEq] at h
    subst h
    have := everyF_sound hk n ts e he
    cases e <;> simp_all

/-- The self-referential one-entry registry `a ↦ [DataType a]`. -/
def cyclicRegistry : DataTypes := [("a", [Ty.dataType "a"])]

/-- On the cyclic registry, no amount of fuel lets the `every` loop of
`lengthIn` reach a result: the recursion is unbounded. -/
theorem everyF_cyclic_none : ∀ n, everyF n cyclicRegistry [Ty.dataType "a"] = none := by
  intro n
  induction n with
  | zero => rfl
  | succ m ih =>
    have hstep : everyF (m + 1) cyclicRegistry [Ty.dataType "a"] =
        match everyF m cyclicRegistry [Ty.dataType "a"] with
        | none => none
        | some e => if e = true then some true else some false := rfl
    rw [hstep, ih]

/-- If the `every` pass terminates for every registered list that the
input references, the pass itself terminates. -/
theorem everyStep_isSome {recur : List Ty → Option Bool} {R : DataTypes} :
    ∀ ts : List Ty,
      (∀ name l, Ty.dataType name ∈ ts → R.lookup name = some l → (recur l).isSome) →
      (everyStep recur R ts).isSome := by
  intro ts
  induction ts with
  | nil => intro _; simp [everyStep]
  | cons t rest ih =>
    intro hrefs
    have hrest : ∀ name l, Ty.dataType name ∈ rest → R.lookup name = some l →
        (recur l).isSome := by
      intro name l hm hl
      exact hrefs name l (List.mem_cons_of_mem _ hm) hl
    by_cases hL : t = Ty.length
    · subst hL; simp [everyStep]
    · by_cases hD : ∀ n, t ≠ Ty.dataType n
      · rw [everyStep_skip hL hD]
        exact ih hrest
      · push_neg at hD
        obtain ⟨name, rfl⟩ := hD
        by_cases hn : name = ""
        · simp only [everyStep, if_pos hn]
          exact ih hrest
        · simp only [everyStep, if_neg hn]
          cases hlk : R.lookup name with
          | none => exact ih hrest
          | some l =>
            show (match recur l with
              | none => none
              | some e => if e = true then everyStep recur R rest else some false).isSome
            have hsome := hrefs name l (List.mem_cons_self _ _) hlk
            obtain ⟨e, hrc⟩ := Option.isSome_iff_exists.mp hsome
            rw [hrc]
            cases e with
            | true => exact ih hrest
            | false => rfl

/-- Ranked-registry termination: if `rank` strictly decreases along every
registered `DataType` reference of the registry, then for any list whose
registered references all have rank below the fuel, the `every` loop
terminates within that fuel. -/
theorem everyF_isSome_of_rank {R : DataTypes} {rank : String → Nat}
    (hr : ∀ p, p ∈ R → ∀ n, n ∈ refNames p.2 → (R.lookup n).isSome → rank n < rank p.1) :
    ∀ k, ∀ ts : List Ty,
      (∀ name l, Ty.dataType name ∈ ts → R.lookup name = some l → rank name < k) →
      (everyF k R ts).isSome := by
  intro k
  induction k using Nat.strong_induction_on with
  | _ k ihk =>
    intro ts hts
    cases k with
    | zero =>
      apply everyStep_isSome
      intro name l hm hl
      exact absurd (hts name l hm hl) (by omega)
    | succ m =>
      apply everyStep_isSome
      intro name l hm hl
      apply ihk m (by omega)
      intro name' l' hm' hl'
      have hmem : (name, l) ∈ R := lookup_mem hl
      have h1 : rank name' < rank name := by
        apply hr (name, l) hmem name'
        · simp only [refNames, List.mem_filterMap]
          exact ⟨Ty.dataType name', hm', rfl⟩
        · rw [hl']; rfl
      have h2 : rank name < m + 1 := hts name l hm hl
      omega

/-- Characterization of `declarationExists`: true exactly when some
declaration in the list already carries the name. -/
theorem declarationExists_iff {decls : List Declaration} {nm : String} :
    declarationExists decls nm = true ↔ ∃ d ∈ decls, d.name = nm := by
  simp only [declarationExists, Bool.not_eq_true', List.all_eq_false,
    decide_eq_false_iff_not, decide_eq_true_eq, not_not]

/-- Branch description of `chooseDeclaration`: either one of the three
shared declarations is chosen and the declaration list is untouched, or
the named per-property declaration is chosen and is appended exactly when
no declaration with its name exists yet. -/
theorem chooseDeclaration_spec {pascal : String → String} {fuel : Nat} {R : DataTypes}
    {gD gsD gnD : Declaration} {decls : List Declaration} {name : String}
    {types : List Ty} {generics : List IGenerics} {dcl : Declaration}
    {newDecls : List Declaration}
    (h : chooseDeclaration pascal fuel R gD gsD gnD decls name types generics =
      some (dcl, newDecls)) :
    (dcl = gD ∨ dcl = gsD ∨ dcl = gnD) ∧ newDecls = decls ∨
      dcl.name = pascal name ++ PROPERTY ∧
        (declarationExists decls dcl.name = true ∧ newDecls = decls ∨
         declarationExists decls dcl.name = false ∧ newDecls = decls ++ [dcl]) := by
  unfold chooseDeclaration at h
  split_ifs at h with h1 h2 h3
  · simp only [Option.some.injEq, Prod.mk.injEq] at h
    exact Or.inl ⟨Or.inl h.1.symm, h.2.symm⟩
  · simp only [Option.some.injEq, Prod.mk.injEq] at h
    exact Or.inl ⟨Or.inr (Or.inl h.1.symm), h.2.symm⟩
  · simp only [Option.some.injEq, Prod.mk.injEq] at h
    exact Or.inl ⟨Or.inr (Or.inr h.1.symm), h.2.symm⟩
  · cases hga : aliasOf fuel R gD with
    | none => rw [hga] at h; exact Option.noConfusion h
    | some ga =>
      cases hdts : declarable pascal fuel R types with
      | none => rw [hga, hdts] at h; exact Option.noConfusion h
      | some dts =>
        rw [hga, hdts] at h
        simp only [Option.some.injEq, Prod.mk.injEq] at h
        obtain ⟨hd, hn⟩ := h
        subst hd
        refine Or.inr ⟨rfl, ?_⟩
        by_cases he : declarationExists decls (pascal name ++ PROPERTY) = true
        · rw [if_pos he] at hn
          exact Or.inl ⟨he, hn.symm⟩
        · rw [if_neg he] at hn
          exact Or.inr ⟨Bool.not_eq_true _ ▸ he, hn.symm⟩

/-- Structural description of one assembly iteration: the two definition
lists are appended exactly one entry each, both aliasing the chosen
declaration, and the declaration list is unchanged unless the property
fell into the named-declaration branch and no declaration of that name
existed yet, in which case exactly that declaration is appended. -/
theorem processOne_spec {pascal caseName : String → String} {fuel : Nat} {R : DataTypes}
    {gD gsD gnD : Declaration} {st : AssemblyState} {name : String} {raw : List Ty}
    {st' : AssemblyState}
    (h : processOne pascal caseName fuel R gD gsD gnD st name raw = some st') :
    ∃ (b : Bool) (al : Ty) (dcl : Declaration) (newDecls : List Declaration),
      lengthInF fuel R (filterMissingDataTypes R raw) = some b ∧
      aliasOf fuel R dcl = some al ∧
      st' = ⟨newDecls,
             st.definitions ++ [⟨caseName name, if b then [lengthGeneric] else [], al⟩],
             st.hyphenDefinitions ++ [⟨name, if b then [lengthGeneric] else [], al⟩]⟩ ∧
      ((dcl = gD ∨ dcl = gsD ∨ dcl = gnD) ∧ newDecls = st.declarations ∨
        dcl.name = pascal name ++ PROPERTY ∧
          (declarationExists st.declarations dcl.name = true ∧ newDecls = st.declarations ∨
           declarationExists st.declarations dcl.name = false ∧
             newDecls = st.declarations ++ [dcl])) := by
  simp only [processOne, Option.bind_eq_bind, Option.bind_eq_some] at h
  obtain ⟨b, hb, h⟩ := h
  obtain ⟨pr, hpr, h⟩ := h
  obtain ⟨al, hal, h⟩ := h
  simp only [Option.some.injEq] at h
  subst h
  rcases pr with ⟨dcl, newDecls⟩
  exact ⟨b, al, dcl, newDecls, hb, hal, rfl, chooseDeclaration_spec hpr⟩

/-- An element's rank is bounded by the folded maximum of ranks. -/
theorem rank_le_foldr_max (rank : String → Nat) :
    ∀ (ns : List String) (n : String), n ∈ ns →
      rank n ≤ ns.foldr (fun m acc => max (rank m) acc) 0 := by
  intro ns
  induction ns with
  | nil => intro n hn; simp at hn
  | cons m rest ih =>
    intro n hn
    rcases List.mem_cons.mp hn with rfl | hn'
    · simp [List.foldr_cons, le_max_iff]
    · simp only [List.foldr_cons, le_max_iff]
      exact Or.inr (ih n hn')

/-- C2: `lengthIn` returns `true` exactly when the list directly contains
a `Length` entry, or contains a `DataType` whose name is registered and
whose registered list itself transitively needs length; consequently the
definition assembled for a property receives the `TLength` generic
parameter exactly in that case.  (The hypothesis `hk` records that the
registry has no empty-string key, which holds for the real registry of
CSS data-type names; `h` records that the fuel suffices for the
recursion, cf. C3.) -/
theorem claimC2 (fuel : Nat) (R : DataTypes) (ts : List Ty) (b : Bool)
    (hk : ∀ k ∈ R.map Prod.fst, k ≠ "")
    (h : lengthInF fuel R ts = some b) :
    (b = true ↔ NeedsLength R ts) ∧
    (∀ pascal caseName gD gsD gnD st name raw st',
      filterMissingDataTypes R raw = ts →
      processOne pascal caseName fuel R gD gsD gnD st name raw = some st' →
      ∃ d, st'.definitions = st.definitions ++ [d] ∧
        (d.generics = [lengthGeneric] ↔ NeedsLength R ts)) := by
  have hiff := lengthInF_sound hk h
  refine ⟨hiff, ?_⟩
  intro pascal caseName gD gsD gnD st name raw st' hfmd hpo
  obtain ⟨b', al, dcl, newDecls, hb', hal, hst, _⟩ := processOne_spec hpo
  rw [hfmd, h] at hb'
  injection hb' with hbb
  subst hbb
  refine ⟨⟨caseName name, if b then [lengthGeneric] else [], al⟩, by rw [hst], ?_⟩
  cases b with
  | false =>
    refine iff_of_false (by simp) ?_
    intro hn
    exact absurd (hiff.mpr hn) (by simp)
  | true =>
    exact iff_of_true (by simp) (hiff.mp rfl)

/-- Witness for C2 at a concrete two-entry registry in which the list
`[DataType "indir"]` needs length only transitively. -/
theorem claimC2_witness :
    (true = true ↔
      NeedsLength [("len", [Ty.length]), ("indir", [Ty.dataType "len"])]
        [Ty.dataType "indir"]) :=
  (claimC2 2 [("len", [Ty.length]), ("indir", [Ty.dataType "len"])]
    [Ty.dataType "indir"] true (by decide) (by decide)).1

/-- C3 counterexample: `lengthIn` has no cycle protection; on the
self-referential registry `a ↦ [DataType a]` the recursion never reaches
a result for any fuel, i.e. it is unbounded. -/
theorem claimC3_counterexample :
    ¬ LengthInTerminates cyclicRegistry [Ty.dataType "a"] := by
  rintro ⟨n, hn⟩
  rw [lengthInF, everyF_cyclic_none n] at hn
  simp at hn

/-- C3 amended: the `lengthIn` recursion terminates for every data-type
registry whose registered `DataType` reference graph admits a strictly
decreasing rank function (equivalently, is acyclic); on cyclic registries
the recursion is unbounded, as the source has no cycle protection. -/
theorem claimC3 (R : DataTypes) (rank : String → Nat)
    (hr : ∀ p ∈ R, ∀ n ∈ refNames p.2, (R.lookup n).isSome → rank n < rank p.1)
    (ts : List Ty) : LengthInTerminates R ts := by
  refine ⟨(refNames ts).foldr (fun n acc => max (rank n) acc) 0 + 1, ?_⟩
  rw [lengthInF]
  have h := everyF_isSome_of_rank hr
    ((refNames ts).foldr (fun n acc => max (rank n) acc) 0 + 1) ts ?_
  · obtain ⟨e, he⟩ := Option.isSome_iff_exists.mp h
    rw [he]
    rfl
  · intro name l hm _
    have hname : name ∈ refNames ts := List.mem_filterMap.mpr ⟨Ty.dataType name, hm, rfl⟩
    have := rank_le_foldr_max rank (refNames ts) name hname
    omega

/-- Witness for the amended C3 on a concrete acyclic two-entry registry. -/
theorem claimC3_witness :
    LengthInTerminates [("len", [Ty.length]), ("indir", [Ty.dataType "len"])]
      [Ty.dataType "indir"] :=
  claimC3 [("len", [Ty.length]), ("indir", [Ty.dataType "len"])]
    (fun n => if n = "indir" then 1 else 0) (by decide) [Ty.dataType "indir"]

/-- Claim-side keep predicate for `filterMissingDataTypes`: a `DataType`
entry is kept exactly when its name is present in the registry; every
other entry is kept. -/
def knownDataType (R : DataTypes) (t : Ty) : Bool :=
  match t with
  | Ty.dataType n => (R.lookup n).isSome
  | _ => true

/-- Under a registry without an empty-string key, the source's keep
predicate agrees with the claim-side one. -/
theorem keepType_eq_known {R : DataTypes} (hk : ∀ k ∈ R.map Prod.fst, k ≠ "")
    (t : Ty) : keepType R t = knownDataType R t := by
  cases t <;> simp only [keepType, knownDataType]
  rename_i n
  cases hs : (R.lookup n).isSome with
  | false => simp
  | true =>
    obtain ⟨l, hl⟩ := Option.isSome_iff_exists.mp hs
    have : n ≠ "" := hk n (lookup_some_mem_keys hl)
    simp [this]

theorem isString_eq_true_iff {t : Ty} : t.isString = true ↔ t = Ty.string := by
  cases t <;> simp [Ty.isString]

/-- The `string` kind is always kept by the claim-side predicate. -/
theorem knownDataType_string {R : DataTypes} : knownDataType R Ty.string = true := rfl

/-- C4: `filterMissingDataTypes` removes exactly the `DataType` entries
whose name is absent from the registry; when at least one entry was
removed and the remaining list has no `String` entry, exactly one
`String` fallback is appended; hence at most one fallback per list, a
non-empty all-unknown input yields exactly `[String]`, and a non-empty
input never yields an empty list. -/
theorem claimC4 (R : DataTypes) (ts : List Ty)
    (hk : ∀ k ∈ R.map Prod.fst, k ≠ "") :
    (filterMissingDataTypes R ts =
      if (¬ ∀ t ∈ ts, knownDataType R t = true) ∧ Ty.string ∉ ts
      then ts.filter (knownDataType R) ++ [Ty.string]
      else ts.filter (knownDataType R)) ∧
    (filterMissingDataTypes R ts).count Ty.string ≤ ts.count Ty.string + 1 ∧
    (ts ≠ [] → filterMissingDataTypes R ts ≠ []) ∧
    ((ts ≠ [] ∧ ∀ t ∈ ts, t.isDataType = true ∧ knownDataType R t = false) →
      filterMissingDataTypes R ts = [Ty.string]) := by
  have hfe : ts.filter (keepType R) = ts.filter (knownDataType R) :=
    List.filter_congr fun t _ => keepType_eq_known hk t
  have hlt : ((ts.filter (knownDataType R)).length < ts.length) ↔
      ¬ ∀ t ∈ ts, knownDataType R t = true := by
    constructor
    · intro hl hall
      rw [List.filter_eq_self.mpr hall] at hl
      omega
    · intro hall
      rcases Nat.lt_or_ge (ts.filter (knownDataType R)).length ts.length with h | h
      · exact h
      · exfalso
        have hle := List.length_filter_le (knownDataType R) ts
        have heq : (ts.filter (knownDataType R)).length = ts.length := by omega
        have hsub : List.Sublist (ts.filter (knownDataType R)) ts := List.filter_sublist ts
        exact hall (List.filter_eq_self.mp (hsub.eq_of_length heq))
  have hmem : Ty.string ∈ ts.filter (knownDataType R) ↔ Ty.string ∈ ts := by
    simp [List.mem_filter, knownDataType_string]
  have hall2 : ((ts.filter (knownDataType R)).all (fun t => !t.isString) = true) ↔
      Ty.string ∉ ts := by
    rw [List.all_eq_true]
    constructor
    · intro h hmem2
      have := h Ty.string (hmem.mpr hmem2)
      simp [Ty.isString] at this
    · intro hnm t ht
      cases hti : t.isString with
      | false => rfl
      | true => exact absurd (hmem.mp (by rw [← isString_eq_true_iff.mp hti]; exact ht)) hnm
  have hmain : filterMissingDataTypes R ts =
      if (¬ ∀ t ∈ ts, knownDataType R t = true) ∧ Ty.string ∉ ts
      then ts.filter (knownDataType R) ++ [Ty.string]
      else ts.filter (knownDataType R) := by
    unfold filterMissingDataTypes
    rw [hfe]
    by_cases hc : (¬ ∀ t ∈ ts, knownDataType R t = true) ∧ Ty.string ∉ ts
    · rw [if_pos hc, if_pos]
      rw [Bool.and_eq_true]
      exact ⟨decide_eq_true (hlt.mpr hc.1), hall2.mpr hc.2⟩
    · rw [if_neg hc, if_neg]
      intro hb
      rw [Bool.and_eq_true] at hb
      exact hc ⟨hlt.mp (of_decide_eq_true hb.1), hall2.mp hb.2⟩
  refine ⟨hmain, ?_, ?_, ?_⟩
  · rw [hmain]
    have hcle : (ts.filter (knownDataType R)).count Ty.string ≤ ts.count Ty.string :=
      (List.filter_sublist ts).count_le Ty.string
    split_ifs with hc
    · rw [List.count_append]
      have h1 : List.count Ty.string [Ty.string] = 1 := by simp
      omega
    · omega
  · intro hne
    rw [hmain]
    split_ifs with hc
    · simp
    · rw [not_and_or] at hc
      rcases hc with hc | hc
      · rw [not_not] at hc
        rw [List.filter_eq_self.mpr hc]
        exact hne
      · rw [not_not] at hc
        exact List.ne_nil_of_mem (hmem.mpr hc)
  · rintro ⟨hne, hall⟩
    have hns : Ty.string ∉ ts := by
      intro hmem2
      have := (hall Ty.string hmem2).1
      simp [Ty.isDataType] at this
    have hnall : ¬ ∀ t ∈ ts, knownDataType R t = true := by
      intro hallk
      obtain ⟨t0, ht0⟩ := List.exists_mem_of_ne_nil ts hne
      have h1 := (hall t0 ht0).2
      have h2 := hallk t0 ht0
      rw [h1] at h2
      exact Bool.noConfusion h2
    have hfnil : ts.filter (knownDataType R) = [] :=
      List.filter_eq_nil_iff.mpr fun t ht => by
        rw [(hall t ht).2]
        exact Bool.noConfusion
    rw [hmain, if_pos ⟨hnall, hns⟩, hfnil]
    rfl

/-- Successful `mapOpt` relates input and output pointwise. -/
theorem mapOpt_forall2 {f : Ty → Option Ty} :
    ∀ {l out : List Ty}, mapOpt f l = some out →
      List.Forall₂ (fun a b => f a = some b) l out := by
  intro l
  induction l with
  | nil =>
    intro out h
    simp only [mapOpt, Option.some.injEq] at h
    subst h
    exact List.Forall₂.nil
  | cons a as ih =>
    intro out h
    simp only [mapOpt] at h
    cases hfa : f a with
    | none => rw [hfa] at h; exact Option.noConfusion h
    | some b =>
      cases hms : mapOpt f as with
      | none => rw [hfa, hms] at h; exact Option.noConfusion h
      | some bs =>
        rw [hfa, hms] at h
        simp only [Option.some.injEq] at h
        subst h
        exact List.Forall₂.cons hfa (ih hms)

/-- Shape of the `declarable` rewrite: a non-`DataType` entry is returned
unchanged; a `DataType` entry becomes an `Alias` named by `pascal`. -/
theorem rewriteType_shape {pascal : String → String} {fuel : Nat} {R : DataTypes}
    {a b : Ty} (h : rewriteType pascal fuel R a = some b) :
    (a.isDataType = false ∧ b = a) ∨
      (∃ n g, a = Ty.dataType n ∧ b = Ty.alias (pascal n) g) := by
  cases a
  case dataType n =>
    refine Or.inr ⟨n, ?_⟩
    simp only [rewriteType] at h
    split_ifs at h with h1
    · simp only [Option.some.injEq] at h
      exact ⟨[], rfl, h.symm⟩
    · cases hlk : R.lookup n with
      | none =>
        simp only [hlk, Option.some.injEq] at h
        exact ⟨[], rfl, h.symm⟩
      | some l =>
        simp only [hlk] at h
        cases hlf : lengthInF fuel R l with
        | none =>
          simp only [hlf] at h
          exact Option.noConfusion h
        | some c =>
          simp only [hlf, Option.some.injEq] at h
          exact ⟨if c then [lengthGeneric] else [], rfl, h.symm⟩
  all_goals
    simp only [rewriteType, Option.some.injEq] at h
    exact Or.inl ⟨rfl, h.symm⟩

/-- Every `Type` ordinal is at most the `Alias` ordinal. -/
theorem ord_le_alias (a : Ty) (n : String) (g : List IGenerics) :
    SorterLE a (Ty.alias n g) := by
  cases a <;> simp [SorterLE, sorter, Ty.ord]

/-- The rewrite of `declarable` is monotone with respect to the sorter
order, so the output of the map stays sorted. -/
theorem rewriteType_mono {pascal : String → String} {fuel : Nat} {R : DataTypes}
    {a a' b b' : Ty}
    (ha : rewriteType pascal fuel R a = some a')
    (hb : rewriteType pascal fuel R b = some b')
    (hab : SorterLE a b) : SorterLE a' b' := by
  rcases rewriteType_shape ha with ⟨hna, rfl⟩ | ⟨n, g, rfl, rfl⟩ <;>
    rcases rewriteType_shape hb with ⟨hnb, rfl⟩ | ⟨m, g2, rfl, rfl⟩
  · exact hab
  · exact ord_le_alias _ _ _
  · cases b' <;>
      simp_all [SorterLE, sorter, Ty.ord, Ty.isDataType] <;> omega
  · exact ord_le_alias _ _ _

/-- Sortedness transfers along a pointwise monotone relation. -/
theorem sorted_transfer {P : Ty → Ty → Prop} {l out : List Ty}
    (hf : List.Forall₂ P l out) (hs : l.Sorted SorterLE)
    (hmono : ∀ a a' b b', P a a' → P b b' → SorterLE a b → SorterLE a' b') :
    out.Sorted SorterLE := by
  have hlen := hf.length_eq
  rw [List.Sorted, List.pairwise_iff_get] at hs ⊢
  intro i j hij
  have hi : (i : Nat) < l.length := by rw [hlen]; exact i.isLt
  have hj : (j : Nat) < l.length := by rw [hlen]; exact j.isLt
  have hPi := hf.get hi i.isLt
  have hPj := hf.get hj j.isLt
  exact hmono _ _ _ _ hPi hPj (hs ⟨i, hi⟩ ⟨j, hj⟩ hij)

/-- C1: the list produced by `declarable` (which sorts with `sorter`
before rewriting) is sorted ascending by `Type`-kind ordinal, with ties
among string literals broken lexicographically and ties among numeric
literals broken numerically; on the literal sets of the claim the exact
outputs are `["a","b","c"]` and `[1,2,3]`. -/
theorem claimC1 :
    (∀ (pascal : String → String) (fuel : Nat) (R : DataTypes) (ts out : List Ty),
      declarable pascal fuel R ts = some out →
      out.Sorted (fun a b => a.ord < b.ord ∨ (a.ord = b.ord ∧ tieLE a b))) ∧
    declarable id 0 []
        [Ty.stringLiteral "c", Ty.stringLiteral "a", Ty.stringLiteral "b"] =
      some [Ty.stringLiteral "a", Ty.stringLiteral "b", Ty.stringLiteral "c"] ∧
    declarable id 0 []
        [Ty.numericLiteral 3, Ty.numericLiteral 1, Ty.numericLiteral 2] =
      some [Ty.numericLiteral 1, Ty.numericLiteral 2, Ty.numericLiteral 3] := by
  refine ⟨?_, by decide, by decide⟩
  intro pascal fuel R ts out h
  have hf := mapOpt_forall2 h
  have hs : (ts.insertionSort SorterLE).Sorted SorterLE :=
    List.sorted_insertionSort SorterLE ts
  have hout : out.Sorted SorterLE :=
    sorted_transfer hf hs (fun a a' b b' ha hb hab => rewriteType_mono ha hb hab)
  exact hout.imp (fun hab => (sorterLE_iff _ _).mp hab)

/-- Witness for C1's sortedness statement at the claim's string-literal
example. -/
theorem claimC1_witness :
    ([Ty.stringLiteral "a", Ty.stringLiteral "b", Ty.stringLiteral "c"] : List Ty).Sorted
      (fun a b => a.ord < b.ord ∨ (a.ord = b.ord ∧ tieLE a b)) :=
  claimC1.1 id 0 []
    [Ty.stringLiteral "c", Ty.stringLiteral "a", Ty.stringLiteral "b"]
    [Ty.stringLiteral "a", Ty.stringLiteral "b", Ty.stringLiteral "c"] (by decide)

/-- Generics attached by the `declarable` rewrite of a `DataType` entry:
`[lengthGeneric]` exactly when the name's registry entry transitively
needs length. -/
theorem rewriteType_dataType_spec {pascal : String → String} {fuel : Nat}
    {R : DataTypes} (hk : ∀ k ∈ R.map Prod.fst, k ≠ "") {n : String} {dst : Ty}
    (h : rewriteType pascal fuel R (Ty.dataType n) = some dst) :
    ∃ g, dst = Ty.alias (pascal n) g ∧ (g = [] ∨ g = [lengthGeneric]) ∧
      (g = [lengthGeneric] ↔ ∃ l, R.lookup n = some l ∧ NeedsLength R l) := by
  simp only [rewriteType] at h
  split_ifs at h with h1
  · simp only [Option.some.injEq] at h
    refine ⟨[], h.symm, Or.inl rfl, ?_⟩
    constructor
    · intro hle; exact absurd hle (by simp [lengthGeneric])
    · rintro ⟨l, hl, -⟩
      subst h1
      exact absurd rfl (hk _ (lookup_some_mem_keys hl))
  · cases hlk : R.lookup n with
    | none =>
      simp only [hlk, Option.some.injEq] at h
      refine ⟨[], h.symm, Or.inl rfl, ?_⟩
      constructor
      · intro hle; exact absurd hle (by simp [lengthGeneric])
      · rintro ⟨l, hl, -⟩
        exact Option.noConfusion hl
    | some l =>
      simp only [hlk] at h
      cases hlf : lengthInF fuel R l with
      | none =>
        simp only [hlf] at h
        exact Option.noConfusion h
      | some c =>
        simp only [hlf, Option.some.injEq] at h
        have hiff := lengthInF_sound hk hlf
        refine ⟨if c then [lengthGeneric] else [], h.symm, ?_, ?_⟩
        · cases c
          · exact Or.inl rfl
          · exact Or.inr rfl
        · cases c with
          | true =>
            simp only [if_pos rfl]
            exact iff_of_true rfl ⟨l, rfl, hiff.mp rfl⟩
          | false =>
            simp only [Bool.false_eq_true, if_false]
            refine iff_of_false (by simp [lengthGeneric]) ?_
            rintro ⟨l', hl', hn⟩
            injection hl' with he
            subst he
            exact absurd (hiff.mpr hn) (by simp)

/-- C7: `declarable` rewrites each `DataType` entry to an `Alias` whose
name is the PascalCase of the data-type name, whose generics are
`[lengthGeneric]` exactly when the named registry entry transitively
needs length, leaves every other entry unchanged, and hence its output
contains no `DataType` entry. -/
theorem claimC7 (pascal : String → String) (fuel : Nat) (R : DataTypes)
    (ts out : List Ty) (hk : ∀ k ∈ R.map Prod.fst, k ≠ "")
    (h : declarable pascal fuel R ts = some out) :
    (∀ t ∈ out, t.isDataType = false) ∧
    List.Forall₂ (fun src dst =>
      (src.isDataType = false → dst = src) ∧
      (∀ n, src = Ty.dataType n →
        ∃ g, dst = Ty.alias (pascal n) g ∧ (g = [] ∨ g = [lengthGeneric]) ∧
          (g = [lengthGeneric] ↔ ∃ l, R.lookup n = some l ∧ NeedsLength R l)))
      (ts.insertionSort SorterLE) out := by
  have hf := mapOpt_forall2 h
  constructor
  · intro t ht
    obtain ⟨j, hjget⟩ := List.mem_iff_get.mp ht
    have hj : (j : Nat) < (ts.insertionSort SorterLE).length := by
      rw [hf.length_eq]; exact j.isLt
    have hrel := hf.get hj j.isLt
    rw [show (out.get ⟨(j : Nat), j.isLt⟩) = t from by
      cases j; exact hjget] at hrel
    rcases rewriteType_shape hrel with ⟨hna, rfl⟩ | ⟨n, g, -, rfl⟩
    · exact hna
    · rfl
  · refine hf.imp ?_
    intro src dst hrel
    constructor
    · intro hnd
      rcases rewriteType_shape hrel with ⟨-, rfl⟩ | ⟨n, g, rfl, -⟩
      · rfl
      · exact absurd hnd (by simp [Ty.isDataType])
    · rintro n rfl
      exact rewriteType_dataType_spec hk hrel

/-- Witness for C7 at a concrete registry: the rewritten list contains no
`DataType` entries. -/
theorem claimC7_witness :
    Ty.isDataType (Ty.alias "len" [lengthGeneric]) = false :=
  (claimC7 id 1 [("len", [Ty.length])]
    [Ty.dataType "len", Ty.stringLiteral "auto"]
    [Ty.stringLiteral "auto", Ty.alias "len" [lengthGeneric]]
    (by decide) (by decide)).1 (Ty.alias "len" [lengthGeneric]) (by decide)

/-- The name an `Alias` value points at. -/
def aliasNameOf : Ty → String
  | .alias n _ => n
  | _ => ""

/-- Every definition's alias refers to a declaration present in the
shared declaration list. -/
def DefsClosed (st : AssemblyState) : Prop :=
  ∀ d ∈ st.definitions, aliasNameOf d.aliasTo ∈ st.declarations.map Declaration.name

/-- `aliasOf` produces an `Alias` named after its declaration. -/
theorem aliasOf_some {fuel : Nat} {R : DataTypes} {d : Declaration} {al : Ty}
    (h : aliasOf fuel R d = some al) : ∃ g, al = Ty.alias d.name g := by
  unfold aliasOf at h
  cases hlf : lengthInF fuel R d.types with
  | none =>
    simp only [hlf] at h
    exact Option.noConfusion h
  | some b =>
    simp only [hlf, Option.some.injEq] at h
    exact ⟨if b then [lengthGeneric] else [], h.symm⟩

/-- One assembly iteration either leaves the declaration list unchanged
or appends exactly one declaration whose name was not present, and it
preserves the alias-closure invariant when the three shared declarations
are present. -/
theorem processOne_step {pascal caseName : String → String} {fuel : Nat} {R : DataTypes}
    {gD gsD gnD : Declaration} {st : AssemblyState} {name : String} {raw : List Ty}
    {st' : AssemblyState}
    (h : processOne pascal caseName fuel R gD gsD gnD st name raw = some st') :
    (st'.declarations = st.declarations ∨
      ∃ dn, dn.name ∉ st.declarations.map Declaration.name ∧
        st'.declarations = st.declarations ++ [dn]) ∧
    ((gD.name ∈ st.declarations.map Declaration.name ∧
      gsD.name ∈ st.declarations.map Declaration.name ∧
      gnD.name ∈ st.declarations.map Declaration.name) →
      DefsClosed st → DefsClosed st') := by
  obtain ⟨b, al, dcl, newDecls, hb, hal, hst, hbr⟩ := processOne_spec h
  obtain ⟨g, rfl⟩ := aliasOf_some hal
  have hdecls : st'.declarations = newDecls := by rw [hst]
  have hdefs : st'.definitions =
      st.definitions ++ [⟨caseName name, if b then [lengthGeneric] else [],
        Ty.alias dcl.name g⟩] := by rw [hst]
  have hnsub : ∀ x, x ∈ st.declarations.map Declaration.name →
      x ∈ newDecls.map Declaration.name := by
    rcases hbr with ⟨-, rfl⟩ | ⟨-, hex⟩
    · exact fun x hx => hx
    · rcases hex with ⟨-, rfl⟩ | ⟨-, rfl⟩
      · exact fun x hx => hx
      · intro x hx
        rw [List.map_append]
        exact List.mem_append_left _ hx
  have hdclmem : (gD.name ∈ st.declarations.map Declaration.name ∧
      gsD.name ∈ st.declarations.map Declaration.name ∧
      gnD.name ∈ st.declarations.map Declaration.name) →
      dcl.name ∈ newDecls.map Declaration.name := by
    rintro ⟨hg, hgs, hgn⟩
    rcases hbr with ⟨hdcl, rfl⟩ | ⟨-, hex⟩
    · rcases hdcl with rfl | rfl | rfl
      · exact hg
      · exact hgs
      · exact hgn
    · rcases hex with ⟨htrue, rfl⟩ | ⟨-, rfl⟩
      · rw [declarationExists_iff] at htrue
        obtain ⟨d0, hd0, he0⟩ := htrue
        exact hnsub _ (List.mem_map.mpr ⟨d0, hd0, he0⟩)
      · rw [List.map_append]
        exact List.mem_append_right _ (by simp)
  constructor
  · rw [hdecls]
    rcases hbr with ⟨-, rfl⟩ | ⟨hname, hex⟩
    · exact Or.inl rfl
    · rcases hex with ⟨-, rfl⟩ | ⟨hfalse, rfl⟩
      · exact Or.inl rfl
      · refine Or.inr ⟨dcl, ?_, rfl⟩
        intro hmem
        rw [List.mem_map] at hmem
        obtain ⟨d, hd, he⟩ := hmem
        have htrue : declarationExists st.declarations dcl.name = true :=
          declarationExists_iff.mpr ⟨d, hd, he⟩
        rw [hfalse] at htrue
        exact Bool.noConfusion htrue
  · intro hbase hc
    intro d hd
    rw [hdefs] at hd
    rw [hdecls]
    rcases List.mem_append.mp hd with hold | hnew
    · exact hnsub _ (hc d hold)
    · have hd' := List.mem_singleton.mp hnew
      subst hd'
      exact hdclmem hbase

/-- C6: during assembly a named declaration is appended to the shared
declaration list only if no declaration with that name is present
(checked by `declarationExists`); consequently the list only ever grows
at the tail (insertion order preserved, first-resolved wins), names stay
distinct, and every emitted definition aliases a declaration present in
the final list rather than introducing a second declaration for the
name. -/
theorem claimC6 (pascal caseName : String → String) (fuel : Nat) (R : DataTypes)
    (gD gsD gnD : Declaration) (ps : List (String × List Ty))
    (st st' : AssemblyState)
    (h : processProperties pascal caseName fuel R gD gsD gnD st ps = some st') :
    (∀ name0 raw0 st0 st1 dn,
      processOne pascal caseName fuel R gD gsD gnD st0 name0 raw0 = some st1 →
      st1.declarations = st0.declarations ++ [dn] →
      declarationExists st0.declarations dn.name = false) ∧
    (∃ ds, st'.declarations = st.declarations ++ ds) ∧
    ((st.declarations.map Declaration.name).Nodup →
      (st'.declarations.map Declaration.name).Nodup) ∧
    ((gD.name ∈ st.declarations.map Declaration.name ∧
      gsD.name ∈ st.declarations.map Declaration.name ∧
      gnD.name ∈ st.declarations.map Declaration.name) →
      DefsClosed st → DefsClosed st') := by
  refine ⟨?_, ?_⟩
  · intro name0 raw0 st0 st1 dn h1 happ
    rcases (processOne_step h1).1 with heq | ⟨dn', hnot, heq⟩
    · rw [heq] at happ
      have := congrArg List.length happ
      simp at this
    · rw [heq] at happ
      have := List.append_cancel_left happ
      injection this with hdn htl
      subst hdn
      cases heq2 : declarationExists st0.declarations dn'.name with
      | false => rfl
      | true =>
        rw [declarationExists_iff] at heq2
        obtain ⟨d0, hd0, he0⟩ := heq2
        exact absurd (List.mem_map.mpr ⟨d0, hd0, he0⟩) hnot
  · induction ps generalizing st with
    | nil =>
      simp only [processProperties, Option.some.injEq] at h
      subst h
      exact ⟨⟨[], by simp⟩, fun hn => hn, fun _ hc => hc⟩
    | cons p rest ih =>
      rcases p with ⟨name0, ts0⟩
      simp only [processProperties, Option.bind_eq_bind, Option.bind_eq_some] at h
      obtain ⟨st1, h1, h2⟩ := h
      have hstep := processOne_step h1
      have hrest := ih st1 h2
      refine ⟨?_, ?_, ?_⟩
      · obtain ⟨ds', hds'⟩ := hrest.1
        rcases hstep.1 with heq | ⟨dn, -, heq⟩
        · exact ⟨ds', by rw [hds', heq]⟩
        · exact ⟨[dn] ++ ds', by rw [hds', heq, List.append_assoc]⟩
      · intro hnodup
        apply hrest.2.1
        rcases hstep.1 with heq | ⟨dn, hnot, heq⟩
        · rw [heq]; exact hnodup
        · rw [heq, List.map_append, List.nodup_append]
          refine ⟨hnodup, by simp, ?_⟩
          intro a ha hb
          simp only [List.map_cons, List.map_nil, List.mem_singleton] at hb
          subst hb
          exact hnot ha
      · rintro hbase hc
        have hsub : ∀ x, x ∈ st.declarations.map Declaration.name →
            x ∈ st1.declarations.map Declaration.name := by
          rcases hstep.1 with heq | ⟨dn, -, heq⟩
          · rw [heq]; exact fun x hx => hx
          · rw [heq, List.map_append]
            exact fun x hx => List.mem_append_left _ hx
        exact hrest.2.2 ⟨hsub _ hbase.1, hsub _ hbase.2.1, hsub _ hbase.2.2⟩
          (hstep.2 hbase hc)

/-- Witness for C6: a concrete run over the same property name twice
appends the named declaration only once. -/
theorem claimC6_witness :
    ∃ ds,
      (AssemblyState.mk
        [⟨"Globals", false, [], []⟩,
         ⟨"GlobalsString", false, [Ty.alias "Globals" [], Ty.string], []⟩,
         ⟨"GlobalsNumber", false, [Ty.alias "Globals" [], Ty.number], []⟩,
         ⟨"widthProperty", false, [Ty.alias "Globals" [], Ty.length], [lengthGeneric]⟩]
        [⟨"width", [lengthGeneric], Ty.alias "widthProperty" [lengthGeneric]⟩,
         ⟨"width", [lengthGeneric], Ty.alias "widthProperty" [lengthGeneric]⟩]
        [⟨"width", [lengthGeneric], Ty.alias "widthProperty" [lengthGeneric]⟩,
         ⟨"width", [lengthGeneric], Ty.alias "widthProperty" [lengthGeneric]⟩]).declarations =
      [⟨"Globals", false, [], []⟩,
       ⟨"GlobalsString", false, [Ty.alias "Globals" [], Ty.string], []⟩,
       ⟨"GlobalsNumber", false, [Ty.alias "Globals" [], Ty.number], []⟩] ++ ds :=
  (claimC6 id id 1 []
    ⟨"Globals", false, [], []⟩
    ⟨"GlobalsString", false, [Ty.alias "Globals" [], Ty.string], []⟩
    ⟨"GlobalsNumber", false, [Ty.alias "Globals" [], Ty.number], []⟩
    [("width", [Ty.length]), ("width", [Ty.length])]
    (AssemblyState.mk
      [⟨"Globals", false, [], []⟩,
       ⟨"GlobalsString", false, [Ty.alias "Globals" [], Ty.string], []⟩,
       ⟨"GlobalsNumber", false, [Ty.alias "Globals" [], Ty.number], []⟩]
      [] [])
    (AssemblyState.mk
      [⟨"Globals", false, [], []⟩,
       ⟨"GlobalsString", false, [Ty.alias "Globals" [], Ty.string], []⟩,
       ⟨"GlobalsNumber", false, [Ty.alias "Globals" [], Ty.number], []⟩,
       ⟨"widthProperty", false, [Ty.alias "Globals" [], Ty.length], [lengthGeneric]⟩]
      [⟨"width", [lengthGeneric], Ty.alias "widthProperty" [lengthGeneric]⟩,
       ⟨"width", [lengthGeneric], Ty.alias "widthProperty" [lengthGeneric]⟩]
      [⟨"width", [lengthGeneric], Ty.alias "widthProperty" [lengthGeneric]⟩,
       ⟨"width", [lengthGeneric], Ty.alias "widthProperty" [lengthGeneric]⟩])
    (by decide)).2.1

/-- Embeds the `IGNORES` list of `properties.ts`: names skipped by the
property loop (custom properties, and `all`, which is defined manually). -/
def IGNORES : List String := ["--*", "all"]

/-- Embeds the seeded initial value of `standardShorthandProperties` in
`properties.ts`: the `all` property starts with an empty type list so
that it only receives the CSS-wide keywords. -/
def standardShorthandPropertiesInit : List (String × List Ty) := [("all", [])]

/-- C8: `onlyContainsString` and `onlyContainsNumber` are vacuously true
on the empty list, but the classification tests emptiness first, so a
property whose filtered list is empty — in particular the ignored `all`
property seeded with `[]` — is declared as an alias of the `Globals`
declaration and never of `GlobalsString`/`GlobalsNumber`. -/
theorem claimC8 :
    onlyContainsString [] = true ∧
    onlyContainsNumber [] = true ∧
    (∀ R : DataTypes, filterMissingDataTypes R [] = []) ∧
    ("all" ∈ IGNORES ∧ standardShorthandPropertiesInit.lookup "all" = some []) ∧
    (∀ (pascal caseName : String → String) (fuel : Nat) (R : DataTypes)
        (gD gsD gnD : Declaration) (st : AssemblyState) (name : String)
        (raw : List Ty) (st' : AssemblyState),
      filterMissingDataTypes R raw = [] →
      processOne pascal caseName fuel R gD gsD gnD st name raw = some st' →
      st'.declarations = st.declarations ∧
      ∃ gens, st'.definitions =
        st.definitions ++ [⟨caseName name, [], Ty.alias gD.name gens⟩]) := by
  refine ⟨rfl, rfl, fun R => rfl, ⟨by decide, rfl⟩, ?_⟩
  intro pascal caseName fuel R gD gsD gnD st name raw st' hfmd hpo
  simp only [processOne, Option.bind_eq_bind, Option.bind_eq_some] at hpo
  obtain ⟨b, hb, hpo⟩ := hpo
  obtain ⟨pr, hpr, hpo⟩ := hpo
  obtain ⟨al, hal, hpo⟩ := hpo
  simp only [Option.some.injEq] at hpo
  subst hpo
  rw [hfmd] at hb hpr
  have hb0 : lengthInF fuel R [] = some false := by cases fuel <;> rfl
  rw [hb0] at hb
  injection hb with hbb
  subst hbb
  simp only [chooseDeclaration, List.isEmpty_nil, if_true, Option.some.injEq] at hpr
  subst hpr
  obtain ⟨g, rfl⟩ := aliasOf_some hal
  exact ⟨rfl, g, rfl⟩

/-- Witness for C8: processing the seeded empty `all` property leaves the
declaration list unchanged and emits an alias of `Globals`. -/
theorem claimC8_witness :
    (AssemblyState.mk [⟨"Globals", false, [], []⟩]
      [⟨"all", [], Ty.alias "Globals" []⟩] [⟨"all", [], Ty.alias "Globals" []⟩]).declarations =
      (AssemblyState.mk [⟨"Globals", false, [], []⟩] [] []).declarations ∧
    ∃ gens, (AssemblyState.mk [⟨"Globals", false, [], []⟩]
      [⟨"all", [], Ty.alias "Globals" []⟩] [⟨"all", [], Ty.alias "Globals" []⟩]).definitions =
      (AssemblyState.mk [⟨"Globals", false, [], []⟩] [] []).definitions ++
        [⟨"all", [], Ty.alias (Declaration.mk "Globals" false [] []).name gens⟩] :=
  claimC8.2.2.2.2 id id 1 [] ⟨"Globals", false, [], []⟩
    ⟨"GlobalsString", false, [Ty.string], []⟩ ⟨"GlobalsNumber", false, [Ty.number], []⟩
    (AssemblyState.mk [⟨"Globals", false, [], []⟩] [] []) "all" []
    (AssemblyState.mk [⟨"Globals", false, [], []⟩]
      [⟨"all", [], Ty.alias "Globals" []⟩] [⟨"all", [], Ty.alias "Globals" []⟩])
    rfl (by decide)

/-- `jsSetDedup` returns a duplicate-free list. -/
theorem jsSetDedup_nodup : ∀ l : List IGenerics, (jsSetDedup l).Nodup := by
  intro l
  induction l with
  | nil => exact List.nodup_nil
  | cons a as ih =>
    simp only [jsSetDedup, List.nodup_cons]
    constructor
    · intro hmem
      have := (List.mem_filter.mp hmem).2
      simp at this
    · exact ih.filter _

/-- Elements of `jsSetDedup l` come from `l`. -/
theorem jsSetDedup_subset {x : IGenerics} : ∀ {l : List IGenerics},
    x ∈ jsSetDedup l → x ∈ l := by
  intro l
  induction l with
  | nil => intro h; exact absurd h (by simp [jsSetDedup])
  | cons a as ih =>
    intro h
    simp only [jsSetDedup, List.mem_cons] at h
    rcases h with rfl | h
    · exact List.mem_cons_self _ _
    · exact List.mem_cons_of_mem _ (ih (List.mem_filter.mp h).1)

/-- Deduplicating a constant list yields nothing or that constant. -/
theorem jsSetDedup_const {a : IGenerics} : ∀ {l : List IGenerics},
    (∀ x ∈ l, x = a) → jsSetDedup l = [] ∨ jsSetDedup l = [a] := by
  intro l
  induction l with
  | nil => intro _; exact Or.inl rfl
  | cons b bs ih =>
    intro hall
    have hb : b = a := hall b (List.mem_cons_self _ _)
    subst hb
    refine Or.inr ?_
    simp only [jsSetDedup]
    have : (jsSetDedup bs).filter (fun x => x ≠ b) = [] := by
      rw [List.filter_eq_nil_iff]
      intro x hx
      have : x = b := hall x (List.mem_cons_of_mem _ (jsSetDedup_subset hx))
      simp [this]
    rw [this]

/-- C9: `genericsOf` returns a duplicate-free list; since every
definition's generics list is `[]` or the singleton `[lengthGeneric]`,
the result is always `[]` or exactly `[lengthGeneric]`. -/
theorem claimC9 (defs : List PropertyAlias)
    (h : ∀ d ∈ defs, d.generics = [] ∨ d.generics = [lengthGeneric]) :
    (genericsOf defs).Nodup ∧
    (genericsOf defs = [] ∨ genericsOf defs = [lengthGeneric]) := by
  refine ⟨jsSetDedup_nodup _, ?_⟩
  apply jsSetDedup_const
  intro x hx
  rw [List.mem_flatMap] at hx
  obtain ⟨d, hd, hxd⟩ := hx
  rcases h d hd with he | he <;> rw [he] at hxd
  · exact absurd hxd (by simp)
  · simpa using hxd

/-- Witness for C9 at a concrete definition list mixing both allowed
generics values. -/
theorem claimC9_witness :
    (genericsOf [⟨"a", [lengthGeneric], Ty.string⟩, ⟨"b", [], Ty.string⟩,
      ⟨"c", [lengthGeneric], Ty.string⟩]).Nodup :=
  (claimC9 [⟨"a", [lengthGeneric], Ty.string⟩, ⟨"b", [], Ty.string⟩,
    ⟨"c", [lengthGeneric], Ty.string⟩] (by decide)).1

/-- Witness for C4: a non-empty list of only unknown references yields
exactly one `String` fallback. -/
theorem claimC4_witness :
    filterMissingDataTypes [("len", [Ty.length])]
      [Ty.dataType "nope", Ty.dataType "nah"] = [Ty.string] :=
  (claimC4 [("len", [Ty.length])] [Ty.dataType "nope", Ty.dataType "nah"]
    (by decide)).2.2.2 (by decide)

/-- Embeds a row of the mdn property table as consumed by the property
loop of `properties.ts`: the syntax string and whether `computed` is an
array (the shorthand test). -/
structure SourceProperty where
  syn : String
  isShorthand : Bool
deriving DecidableEq

/-- The four property maps filled by the loop. -/
inductive PropMap where
  | standardLonghand
  | standardShorthand
  | vendorLonghand
  | vendorShorthand
deriving DecidableEq

/-- Embeds `REGEX_VENDOR_PROPERTY`, the regular expression testing for a
leading hyphen in the name. -/
def isVendorName (name : String) : Bool :=
  match name.data with
  | c :: _ => c = '-'
  | [] => false

/-- Which map a name is assigned to: vendor by the leading-hyphen test on
the assigned name, shorthand by the original property's `computed`
field. -/
def mapFor (isShorthand : Bool) (name : String) : PropMap :=
  if isVendorName name then
    if isShorthand then PropMap.vendorShorthand else PropMap.vendorLonghand
  else
    if isShorthand then PropMap.standardShorthand else PropMap.standardLonghand

/-- The names an original property is assigned under:
`[originalName, ...compatProperties(originalName)]`. -/
def propNames (compat : String → List String) (o : String) : List String :=
  o :: compat o

/-- Embeds the main property loop of `properties.ts`: for each
non-ignored property the syntax is resolved once
(`typing(parse(properties[originalName].syntax))`) and that one list is
assigned to the original name and every compat name, routed to the
appropriate map.  `resolve` abstracts `typing ∘ parse` and `compat`
abstracts `compatProperties`, neither of which is among the sources.  The
result records every map write in loop order. -/
def propertyAssignments (resolve : String → List Ty) (compat : String → List String) :
    List (String × SourceProperty) → List (PropMap × String × List Ty)
  | [] => []
  | (o, p) :: rest =>
    if o ∈ IGNORES then propertyAssignments resolve compat rest
    else
      ((propNames compat o).map fun n => (mapFor p.isShorthand n, n, resolve p.syn)) ++
        propertyAssignments resolve compat rest

/-- The final value a name holds after all assignments: JavaScript object
assignment keeps the last write. -/
def assignedTypes (l : List (PropMap × String × List Ty)) (n : String) :
    Option (List Ty) :=
  (l.reverse.find? (fun e => e.2.1 == n)).map (fun e => e.2.2)

/-- When every write to a name carries the same value and at least one
write exists, the surviving value is that value. -/
theorem find?_const {n : String} {v : List Ty} :
    ∀ m : List (PropMap × String × List Ty),
      (∀ e ∈ m, e.2.1 = n → e.2.2 = v) → (∃ e ∈ m, e.2.1 = n) →
      (m.find? (fun e => e.2.1 == n)).map (fun e => e.2.2) = some v := by
  intro m
  induction m with
  | nil =>
    rintro _ ⟨e, he, -⟩
    simp at he
  | cons x xs ih =>
    rintro hall hex
    by_cases hx : x.2.1 = n
    · rw [show List.find? (fun e => e.2.1 == n) (x :: xs) = some x from
        List.find?_cons_of_pos _ (by simp [hx])]
      simp only [Option.map_some']
      rw [hall x (List.mem_cons_self _ _) hx]
    · rw [show List.find? (fun e => e.2.1 == n) (x :: xs) =
          List.find? (fun e => e.2.1 == n) xs from
        List.find?_cons_of_neg _ (by simp [hx])]
      apply ih
      · intro e he hn
        exact hall e (List.mem_cons_of_mem _ he) hn
      · rcases hex with ⟨e, he, hn⟩
        rcases List.mem_cons.mp he with rfl | he'
        · exact absurd hn hx
        · exact ⟨e, he', hn⟩

/-- Characterization of the writes performed by the property loop. -/
theorem mem_propertyAssignments {resolve : String → List Ty}
    {compat : String → List String} :
    ∀ {table : List (String × SourceProperty)} {x : PropMap × String × List Ty},
      x ∈ propertyAssignments resolve compat table ↔
      ∃ e ∈ table, e.1 ∉ IGNORES ∧ ∃ nm ∈ propNames compat e.1,
        x = (mapFor e.2.isShorthand nm, nm, resolve e.2.syn) := by
  intro table
  induction table with
  | nil => simp [propertyAssignments]
  | cons ep rest ih =>
    intro x
    rcases ep with ⟨o, p⟩
    by_cases ho : o ∈ IGNORES
    · simp only [propertyAssignments, if_pos ho]
      rw [ih]
      constructor
      · rintro ⟨e, he, hni, hr⟩
        exact ⟨e, List.mem_cons_of_mem _ he, hni, hr⟩
      · rintro ⟨e, he, hni, hr⟩
        rcases List.mem_cons.mp he with rfl | he'
        · exact absurd ho hni
        · exact ⟨e, he', hni, hr⟩
    · simp only [propertyAssignments, if_neg ho, List.mem_append, List.mem_map]
      rw [ih]
      constructor
      · rintro (⟨nm, hnm, rfl⟩ | ⟨e, he, hni, hr⟩)
        · exact ⟨(o, p), List.mem_cons_self _ _, ho, nm, hnm, rfl⟩
        · exact ⟨e, List.mem_cons_of_mem _ he, hni, hr⟩
      · rintro ⟨e, he, hni, nm, hnm, hx⟩
        rcases List.mem_cons.mp he with rfl | he'
        · exact Or.inl ⟨nm, hnm, hx.symm⟩
        · exact Or.inr ⟨e, he', hni, nm, hnm, hx⟩

/-- C5: for every property of the source table, the type list assigned to
the original name and to each compat/vendor alias name is the same single
resolution of the shared syntax string, and the assigned values do not
depend on the order in which properties are processed.  The `Pairwise`
hypothesis records that distinct properties do not share assigned names,
as in the real table. -/
theorem claimC5 (resolve : String → List Ty) (compat : String → List String)
    (table : List (String × SourceProperty))
    (hdisj : table.Pairwise (fun e1 e2 => ∀ n, n ∈ propNames compat e1.1 →
      n ∉ propNames compat e2.1))
    (o : String) (p : SourceProperty) (he : (o, p) ∈ table) (hno : o ∉ IGNORES)
    (a : String) (ha : a ∈ propNames compat o) :
    assignedTypes (propertyAssignments resolve compat table) a = some (resolve p.syn) ∧
    ∀ table2, table.Perm table2 →
      assignedTypes (propertyAssignments resolve compat table2) a =
        some (resolve p.syn) := by
  have hsymm : ∀ {e1 e2 : String × SourceProperty},
      (∀ n, n ∈ propNames compat e1.1 → n ∉ propNames compat e2.1) →
      (∀ n, n ∈ propNames compat e2.1 → n ∉ propNames compat e1.1) := by
    intro e1 e2 h12 n hn2 hn1
    exact h12 n hn1 hn2
  have main : ∀ tb : List (String × SourceProperty),
      tb.Pairwise (fun e1 e2 => ∀ n, n ∈ propNames compat e1.1 →
        n ∉ propNames compat e2.1) →
      (o, p) ∈ tb →
      assignedTypes (propertyAssignments resolve compat tb) a =
        some (resolve p.syn) := by
    intro tb hdj hmem
    unfold assignedTypes
    apply find?_const
    · intro e hee hname
      rw [List.mem_reverse, mem_propertyAssignments] at hee
      obtain ⟨e', he', hni', nm, hnm, rfl⟩ := hee
      simp only at hname
      subst hname
      by_cases hsame : e' = (o, p)
      · subst hsame
        rfl
      · exfalso
        have hR := List.Pairwise.forall (fun x y => hsymm) hdj he' hmem hsame
        exact hR _ hnm ha
    · refine ⟨(mapFor p.isShorthand a, a, resolve p.syn), ?_, rfl⟩
      rw [List.mem_reverse, mem_propertyAssignments]
      exact ⟨(o, p), hmem, hno, a, ha, rfl⟩
  refine ⟨main table hdisj he, ?_⟩
  intro table2 hperm
  exact main table2 ((hperm.pairwise_iff (fun h => hsymm h)).mp hdisj)
    (hperm.mem_iff.mp he)

/-- Witness for C5: a vendor alias of a concrete property receives the
very list resolved for the original property. -/
theorem claimC5_witness :
    assignedTypes
      (propertyAssignments (fun s => [Ty.stringLiteral s])
        (fun o => if o = "gap" then ["-moz-gap"] else [])
        [("gap", ⟨"auto", false⟩), ("top", ⟨"len", false⟩)])
      "-moz-gap" = some [Ty.stringLiteral "auto"] :=
  (claimC5 (fun s => [Ty.stringLiteral s])
    (fun o => if o = "gap" then ["-moz-gap"] else [])
    [("gap", ⟨"auto", false⟩), ("top", ⟨"len", false⟩)]
    (by decide) "gap" ⟨"auto", false⟩ (by decide) (by decide)
    "-moz-gap" (by decide)).1

/-- Embeds the `Interface` record of `properties.ts`.  Lean structures
cannot be recursive, so this is an inductive with accessor functions;
`extends` is called `ext` (`extends` is a Lean keyword). -/
inductive Interface where
  | mk (name : String) (generics : List IGenerics) (ext : List Interface)
      (fallback : Bool) (properties : List PropertyAlias)

def Interface.name : Interface → String
  | .mk n _ _ _ _ => n

def Interface.generics : Interface → List IGenerics
  | .mk _ g _ _ _ => g

def Interface.ext : Interface → List Interface
  | .mk _ _ e _ _ => e

def Interface.fallback : Interface → Bool
  | .mk _ _ _ f _ => f

def Interface.properties : Interface → List PropertyAlias
  | .mk _ _ _ _ p => p

/-- The definition lists filled by the assembly loops, which the
interface constants of `properties.ts` are built from; they are inputs
here because the real ones are computed from the full mdn tables. -/
structure PropertyDefinitions where
  standardLonghand : List PropertyAlias
  standardShorthand : List PropertyAlias
  vendorLonghand : List PropertyAlias
  vendorShorthand : List PropertyAlias
  svg : List PropertyAlias
  standardLonghandHyphen : List PropertyAlias
  standardShorthandHyphen : List PropertyAlias
  vendorLonghandHyphen : List PropertyAlias
  vendorShorthandHyphen : List PropertyAlias
  svgHyphen : List PropertyAlias

def standardLonghandPropertiesGenerics (D : PropertyDefinitions) : List IGenerics :=
  genericsOf D.standardLonghand

def standardShorthandPropertiesGenerics (D : PropertyDefinitions) : List IGenerics :=
  genericsOf D.standardShorthand

def standardPropertiesGenerics (D : PropertyDefinitions) : List IGenerics :=
  genericsOf (D.standardLonghand ++ D.standardShorthand)

def vendorLonghandPropertiesGenerics (D : PropertyDefinitions) : List IGenerics :=
  genericsOf D.vendorLonghand

def vendorShorthandPropertiesGenerics (D : PropertyDefinitions) : List IGenerics :=
  genericsOf D.vendorShorthand

def vendorPropertiesGenerics (D : PropertyDefinitions) : List IGenerics :=
  genericsOf (D.vendorLonghand ++ D.vendorShorthand)

def svgPropertiesGenerics (D : PropertyDefinitions) : List IGenerics :=
  genericsOf D.svg

def allPropertiesGenerics (D : PropertyDefinitions) : List IGenerics :=
  genericsOf (D.standardLonghand ++ D.standardShorthand ++ D.vendorLonghand ++
    D.vendorShorthand ++ D.svg)

def standardLonghandPropertiesInterface (D : PropertyDefinitions) : Interface :=
  .mk "StandardLonghandProperties" (standardLonghandPropertiesGenerics D) [] false
    D.standardLonghand

def standardShorthandPropertiesInterface (D : PropertyDefinitions) : Interface :=
  .mk "StandardShorthandProperties" (standardShorthandPropertiesGenerics D) [] false
    D.standardShorthand

def standardPropertiesInterface (D : PropertyDefinitions) : Interface :=
  .mk "StandardProperties" (standardPropertiesGenerics D)
    [standardLonghandPropertiesInterface D, standardShorthandPropertiesInterface D]
    false []

def vendorLonghandPropertiesInterface (D : PropertyDefinitions) : Interface :=
  .mk "VendorLonghandProperties" (vendorLonghandPropertiesGenerics D) [] false
    D.vendorLonghand

def vendorShorthandPropertiesInterface (D : PropertyDefinitions) : Interface :=
  .mk "VendorShorthandProperties" (vendorShorthandPropertiesGenerics D) [] false
    D.vendorShorthand

def vendorPropertiesInterface (D : PropertyDefinitions) : Interface :=
  .mk "VendorProperties" (vendorPropertiesGenerics D)
    [vendorLonghandPropertiesInterface D, vendorShorthandPropertiesInterface D]
    false []

def svgPropertiesInterface (D : PropertyDefinitions) : Interface :=
  .mk "SvgProperties" (svgPropertiesGenerics D) [] false D.svg

def allPropertiesInterface (D : PropertyDefinitions) : Interface :=
  .mk "Properties" (allPropertiesGenerics D)
    [standardPropertiesInterface D, vendorPropertiesInterface D, svgPropertiesInterface D]
    false []

def standardLonghandPropertiesHyphenInterface (D : PropertyDefinitions) : Interface :=
  .mk "StandardLonghandPropertiesHyphen" (standardLonghandPropertiesGenerics D) [] false
    D.standardLonghandHyphen

def standardShorthandPropertiesHyphenInterface (D : PropertyDefinitions) : Interface :=
  .mk "StandardShorthandPropertiesHyphen" (standardShorthandPropertiesGenerics D) [] false
    D.standardShorthandHyphen

def standardPropertiesHyphenInterface (D : PropertyDefinitions) : Interface :=
  .mk "StandardPropertiesHyphen" (standardPropertiesGenerics D)
    [standardLonghandPropertiesHyphenInterface D, standardShorthandPropertiesHyphenInterface D]
    false []

def vendorLonghandPropertiesHyphenInterface (D : PropertyDefinitions) : Interface :=
  .mk "VendorLonghandPropertiesHyphen" (vendorLonghandPropertiesGenerics D) [] false
    D.vendorLonghandHyphen

def vendorShorthandPropertiesHyphenInterface (D : PropertyDefinitions) : Interface :=
  .mk "VendorShorthandPropertiesHyphen" (vendorShorthandPropertiesGenerics D) [] false
    D.vendorShorthandHyphen

def vendorPropertiesHyphenInterface (D : PropertyDefinitions) : Interface :=
  .mk "VendorPropertiesHyphen" (vendorPropertiesGenerics D)
    [vendorLonghandPropertiesHyphenInterface D, vendorShorthandPropertiesHyphenInterface D]
    false []

def svgPropertiesHyphenInterface (D : PropertyDefinitions) : Interface :=
  .mk "SvgPropertiesHyphen" (svgPropertiesGenerics D) [] false D.svgHyphen

def allPropertiesHyphenInterface (D : PropertyDefinitions) : Interface :=
  .mk "PropertiesHyphen" (allPropertiesGenerics D)
    [standardPropertiesHyphenInterface D, vendorPropertiesHyphenInterface D,
     svgPropertiesHyphenInterface D]
    false []

def standardLongformPropertiesFallbackInterface (D : PropertyDefinitions) : Interface :=
  .mk "StandardLonghandPropertiesFallback"
    (standardLonghandPropertiesInterface D).generics
    (standardLonghandPropertiesInterface D).ext
    true
    (standardLonghandPropertiesInterface D).properties

def standardShorthandPropertiesFallbackInterface (D : PropertyDefinitions) : Interface :=
  .mk "StandardShorthandPropertiesFallback"
    (standardShorthandPropertiesInterface D).generics
    (standardShorthandPropertiesInterface D).ext
    true
    (standardShorthandPropertiesInterface D).properties

def standardPropertiesFallbackInterface (D : PropertyDefinitions) : Interface :=
  .mk "StandardPropertiesFallback"
    (standardPropertiesInterface D).generics
    [standardLongformPropertiesFallbackInterface D,
     standardShorthandPropertiesFallbackInterface D]
    true
    (standardPropertiesInterface D).properties

def vendorLonghandPropertiesFallbackInterface (D : PropertyDefinitions) : Interface :=
  .mk "VendorLonghandPropertiesFallback"
    (vendorLonghandPropertiesInterface D).generics
    (vendorLonghandPropertiesInterface D).ext
    true
    (vendorLonghandPropertiesInterface D).properties

def vendorShorthandPropertiesFallbackInterface (D : PropertyDefinitions) : Interface :=
  .mk "VendorShorthandPropertiesFallback"
    (vendorShorthandPropertiesInterface D).generics
    (vendorShorthandPropertiesInterface D).ext
    true
    (vendorShorthandPropertiesInterface D).properties

def vendorPropertiesFallbackInterface (D : PropertyDefinitions) : Interface :=
  .mk "VendorPropertiesFallback"
    (vendorPropertiesInterface D).generics
    [vendorLonghandPropertiesFallbackInterface D,
     vendorShorthandPropertiesFallbackInterface D]
    true
    (vendorPropertiesInterface D).properties

def svgPropertiesFallbackInterface (D : PropertyDefinitions) : Interface :=
  .mk "SvgPropertiesFallback"
    (svgPropertiesInterface D).generics
    (svgPropertiesInterface D).ext
    true
    (svgPropertiesInterface D).properties

def allPropertiesFallbackInterface (D : PropertyDefinitions) : Interface :=
  .mk "PropertiesFallback"
    (allPropertiesInterface D).generics
    [standardPropertiesFallbackInterface D, vendorPropertiesFallbackInterface D,
     svgPropertiesFallbackInterface D]
    true
    (allPropertiesInterface D).properties

def standardLongformPropertiesHyphenFallbackInterface (D : PropertyDefinitions) : Interface :=
  .mk "StandardLonghandPropertiesHyphenFallback"
    (standardLonghandPropertiesHyphenInterface D).generics
    (standardLonghandPropertiesHyphenInterface D).ext
    true
    (standardLonghandPropertiesHyphenInterface D).properties

def standardShorthandPropertiesHyphenFallbackInterface (D : PropertyDefinitions) : Interface :=
  .mk "StandardShorthandPropertiesHyphenFallback"
    (standardShorthandPropertiesHyphenInterface D).generics
    (standardShorthandPropertiesHyphenInterface D).ext
    true
    (standardShorthandPropertiesHyphenInterface D).properties

def standardPropertiesHyphenFallbackInterface (D : PropertyDefinitions) : Interface :=
  .mk "StandardPropertiesHyphenFallback"
    (standardPropertiesHyphenInterface D).generics
    [standardLongformPropertiesHyphenFallbackInterface D,
     standardShorthandPropertiesHyphenFallbackInterface D]
    true
    (standardPropertiesHyphenInterface D).properties

def vendorLonghandPropertiesHyphenFallbackInterface (D : PropertyDefinitions) : Interface :=
  .mk "VendorLonghandPropertiesHyphenFallback"
    (vendorLonghandPropertiesHyphenInterface D).generics
    (vendorLonghandPropertiesHyphenInterface D).ext
    true
    (vendorLonghandPropertiesHyphenInterface D).properties

def vendorShorthandPropertiesHyphenFallbackInterface (D : PropertyDefinitions) : Interface :=
  .mk "VendorShorthandPropertiesHyphenFallback"
    (vendorShorthandPropertiesHyphenInterface D).generics
    (vendorShorthandPropertiesHyphenInterface D).ext
    true
    (vendorShorthandPropertiesHyphenInterface D).properties

def vendorPropertiesHyphenFallbackInterface (D : PropertyDefinitions) : Interface :=
  .mk "VendorPropertiesHyphenFallback"
    (vendorPropertiesHyphenInterface D).generics
    [vendorLonghandPropertiesHyphenFallbackInterface D,
     vendorShorthandPropertiesHyphenFallbackInterface D]
    true
    (vendorPropertiesHyphenInterface D).properties

def svgPropertiesHyphenFallbackInterface (D : PropertyDefinitions) : Interface :=
  .mk "SvgPropertiesHyphenFallback"
    (svgPropertiesHyphenInterface D).generics
    (svgPropertiesHyphenInterface D).ext
    true
    (svgPropertiesHyphenInterface D).properties

def allPropertiesHyphenFallbackInterface (D : PropertyDefinitions) : Interface :=
  .mk "PropertiesHyphenFallback"
    (allPropertiesHyphenInterface D).generics
    [standardPropertiesHyphenFallbackInterface D, vendorPropertiesHyphenFallbackInterface D,
     svgPropertiesHyphenFallbackInterface D]
    true
    (allPropertiesHyphenInterface D).properties

/-- The frame properties C10 asserts of one fallback copy of a base
interface. -/
def FallbackCopies (fb base : Interface) : Prop :=
  fb.generics = base.generics ∧ fb.properties = base.properties ∧ fb.fallback = true

/-- C10: every Fallback and Hyphen-Fallback interface is a copy of its
base interface: generics and properties are the base's field values and
the fallback flag is set; only the name and — for the aggregate
interfaces — the extends list differ (for the non-aggregate interfaces
even the extends list equals the base's). -/
theorem claimC10 (D : PropertyDefinitions) :
    (FallbackCopies (standardLongformPropertiesFallbackInterface D)
        (standardLonghandPropertiesInterface D) ∧
      (standardLongformPropertiesFallbackInterface D).ext =
        (standardLonghandPropertiesInterface D).ext) ∧
    (FallbackCopies (standardShorthandPropertiesFallbackInterface D)
        (standardShorthandPropertiesInterface D) ∧
      (standardShorthandPropertiesFallbackInterface D).ext =
        (standardShorthandPropertiesInterface D).ext) ∧
    FallbackCopies (standardPropertiesFallbackInterface D)
      (standardPropertiesInterface D) ∧
    (FallbackCopies (vendorLonghandPropertiesFallbackInterface D)
        (vendorLonghandPropertiesInterface D) ∧
      (vendorLonghandPropertiesFallbackInterface D).ext =
        (vendorLonghandPropertiesInterface D).ext) ∧
    (FallbackCopies (vendorShorthandPropertiesFallbackInterface D)
        (vendorShorthandPropertiesInterface D) ∧
      (vendorShorthandPropertiesFallbackInterface D).ext =
        (vendorShorthandPropertiesInterface D).ext) ∧
    FallbackCopies (vendorPropertiesFallbackInterface D)
      (vendorPropertiesInterface D) ∧
    (FallbackCopies (svgPropertiesFallbackInterface D)
        (svgPropertiesInterface D) ∧
      (svgPropertiesFallbackInterface D).ext = (svgPropertiesInterface D).ext) ∧
    FallbackCopies (allPropertiesFallbackInterface D) (allPropertiesInterface D) ∧
    (FallbackCopies (standardLongformPropertiesHyphenFallbackInterface D)
        (standardLonghandPropertiesHyphenInterface D) ∧
      (standardLongformPropertiesHyphenFallbackInterface D).ext =
        (standardLonghandPropertiesHyphenInterface D).ext) ∧
    (FallbackCopies (standardShorthandPropertiesHyphenFallbackInterface D)
        (standardShorthandPropertiesHyphenInterface D) ∧
      (standardShorthandPropertiesHyphenFallbackInterface D).ext =
        (standardShorthandPropertiesHyphenInterface D).ext) ∧
    FallbackCopies (standardPropertiesHyphenFallbackInterface D)
      (standardPropertiesHyphenInterface D) ∧
    (FallbackCopies (vendorLonghandPropertiesHyphenFallbackInterface D)
        (vendorLonghandPropertiesHyphenInterface D) ∧
      (vendorLonghandPropertiesHyphenFallbackInterface D).ext =
        (vendorLonghandPropertiesHyphenInterface D).ext) ∧
    (FallbackCopies (vendorShorthandPropertiesHyphenFallbackInterface D)
        (vendorShorthandPropertiesHyphenInterface D) ∧
      (vendorShorthandPropertiesHyphenFallbackInterface D).ext =
        (vendorShorthandPropertiesHyphenInterface D).ext) ∧
    FallbackCopies (vendorPropertiesHyphenFallbackInterface D)
      (vendorPropertiesHyphenInterface D) ∧
    (FallbackCopies (svgPropertiesHyphenFallbackInterface D)
        (svgPropertiesHyphenInterface D) ∧
      (svgPropertiesHyphenFallbackInterface D).ext =
        (svgPropertiesHyphenInterface D).ext) ∧
    FallbackCopies (allPropertiesHyphenFallbackInterface D)
      (allPropertiesHyphenInterface D) := by
  exact ⟨⟨⟨rfl, rfl, rfl⟩, rfl⟩, ⟨⟨rfl, rfl, rfl⟩, rfl⟩, ⟨rfl, rfl, rfl⟩,
    ⟨⟨rfl, rfl, rfl⟩, rfl⟩, ⟨⟨rfl, rfl, rfl⟩, rfl⟩, ⟨rfl, rfl, rfl⟩,
    ⟨⟨rfl, rfl, rfl⟩, rfl⟩, ⟨rfl, rfl, rfl⟩,
    ⟨⟨rfl, rfl, rfl⟩, rfl⟩, ⟨⟨rfl, rfl, rfl⟩, rfl⟩, ⟨rfl, rfl, rfl⟩,
    ⟨⟨rfl, rfl, rfl⟩, rfl⟩, ⟨⟨rfl, rfl, rfl⟩, rfl⟩, ⟨rfl, rfl, rfl⟩,
    ⟨⟨rfl, rfl, rfl⟩, rfl⟩, ⟨rfl, rfl, rfl⟩⟩

end CssType
